import Mathlib

/-!
Verification development for the ollama_python_cli repository.

The first part embeds `src/markedownExtractor.py` (regex-based extraction
of fenced code blocks and pipe tables); the second part embeds the
tool-augmented conversation turn engine `run_chat_turn` of
`src/cliOllama.py` (catalog gathering, streaming, tool dispatch).
-/

namespace OllamaCli

/-- The backtick character (code 96), the fence character of
`_code_block_pattern`. -/
def backtick : Char := Char.ofNat 96

/-- Whitespace recognized by Python `str.strip()` (ASCII). -/
def isPySpace (c : Char) : Bool :=
  c = ' ' || c = '\t' || c = '\n' || c = '\r' || c = '\x0b' || c = '\x0c'

/-- Python `str.strip()`: drop whitespace from both ends. -/
def pyStrip (cs : List Char) : List Char :=
  ((cs.dropWhile isPySpace).reverse.dropWhile isPySpace).reverse

/-- The character class `[a-zA-Z0-9_-]` of the `lang` group in
`_code_block_pattern`. -/
def isLangChar (c : Char) : Bool :=
  ('a' ≤ c && c ≤ 'z') || ('A' ≤ c && c ≤ 'Z') || ('0' ≤ c && c ≤ '9')
    || c = '_' || c = '-'

/-- Match the literal three-backtick fence at the head of the list;
return the remainder on success. -/
def matchFence : List Char → Option (List Char)
  | a :: b :: c :: rest =>
    if a = backtick && b = backtick && c = backtick then some rest else none
  | _ => none

/-- The lazy `(?P<code>.*?)` with `re.DOTALL` followed by the closing
fence: split at the earliest closing fence, returning the code body and
the remainder after the fence. -/
def splitAtFence : List Char → Option (List Char × List Char)
  | [] => none
  | c :: cs =>
    match matchFence (c :: cs) with
    | some rest => some ([], rest)
    | none =>
      match splitAtFence cs with
      | some (pre, rest) => some (c :: pre, rest)
      | none => none

/-- One extracted code block: the `language` and `code` fields of the
dict built by `extract_code_blocks`. -/
structure CodeBlock where
  language : Option String
  code : String
deriving DecidableEq

/-- The language value built by `extract_code_blocks` (strip the lang
group, then an or-None): an empty language becomes `none`, never the empty
string. -/
def mkLang (lang : List Char) : Option String :=
  let l := pyStrip lang
  if l.isEmpty then none else some (String.mk l)

/-- One attempt of `_code_block_pattern` at the current position:
the opening fence, a greedy run of language characters, a newline, then
the lazy body up to the earliest closing fence.  Returns the block built
by `extract_code_blocks` (language via `mkLang`, body stripped) and the
rest of the input after the match. -/
def matchCodeAt (cs : List Char) : Option (CodeBlock × List Char) :=
  match matchFence cs with
  | none => none
  | some afterOpen =>
    let lang := afterOpen.takeWhile isLangChar
    let afterLang := afterOpen.dropWhile isLangChar
    if afterLang.head? = some '\n' then
      match splitAtFence afterLang.tail with
      | some (code, rest) => some (⟨mkLang lang, String.mk (pyStrip code)⟩, rest)
      | none => none
    else none

/-- `finditer` over `_code_block_pattern`: leftmost non-overlapping
matches, scanning one character at a time.  The fuel only bounds the
scan; one unit per input character suffices since every step consumes at
least one character. -/
def codeScan : Nat → List Char → List CodeBlock
  | 0, _ => []
  | _ + 1, [] => []
  | fuel + 1, c :: cs =>
    match matchCodeAt (c :: cs) with
    | some (blk, rest) => blk :: codeScan fuel rest
    | none => codeScan fuel cs

/-- `MarkdownExtractor.extract_code_blocks`. -/
def extract_code_blocks (s : String) : List CodeBlock :=
  codeScan s.data.length s.data

/-- One repetition tail of `_table_pattern` after its leading pipe:
the lazy `.*?` (no newline without DOTALL) up to the earliest pipe that
is immediately followed by a newline.  Returns the consumed segment
(ending in the pipe and newline) and the remainder. -/
def rowTail : List Char → Option (List Char × List Char)
  | [] => none
  | c :: rest =>
    if c = '|' && rest.head? = some '\n' then some (['|', '\n'], rest.tail)
    else if c = '\n' then none
    else
      match rowTail rest with
      | some (seg, rem) => some (c :: seg, rem)
      | none => none

/-- One full repetition of the group in `_table_pattern`
(the row pattern of a pipe, a lazy body, a pipe and a newline) at the
current position. -/
def matchRowAt : List Char → Option (List Char × List Char)
  | '|' :: rest =>
    match rowTail rest with
    | some (seg, rem) => some ('|' :: seg, rem)
    | none => none
  | _ => none

/-- The greedy plus of `_table_pattern`: consume as many consecutive
rows as possible.  Fuel bounds the loop; one unit per input character
suffices. -/
def moreRows : Nat → List Char → List Char × List Char
  | 0, cs => ([], cs)
  | fuel + 1, cs =>
    match matchRowAt cs with
    | none => ([], cs)
    | some (row, rest) =>
      let p := moreRows fuel rest
      (row ++ p.1, p.2)

/-- One match of `_table_pattern` at the current position:
one row, then greedily further rows. -/
def matchTableAt (cs : List Char) : Option (List Char × List Char) :=
  match matchRowAt cs with
  | none => none
  | some (row, rest) =>
    let p := moreRows rest.length rest
    some (row ++ p.1, p.2)

/-- `finditer` over `_table_pattern`: leftmost non-overlapping matches. -/
def tableScan : Nat → List Char → List (List Char)
  | 0, _ => []
  | _ + 1, [] => []
  | fuel + 1, c :: cs =>
    match matchTableAt (c :: cs) with
    | some (raw, rest) => raw :: tableScan fuel rest
    | none => tableScan fuel cs

/-- One anchored match of the separator-cell pattern used by
`extract_tables`: a pipe, optional whitespace, an optional colon, three
or more dashes, an optional colon, optional whitespace and a pipe. -/
def sepAt : List Char → Bool
  | '|' :: r0 =>
    let r1 := r0.dropWhile isPySpace
    let r2 := if r1.head? = some ':' then r1.tail else r1
    let dashes := r2.takeWhile (fun c => c = '-')
    let r3 := r2.dropWhile (fun c => c = '-')
    if dashes.length < 3 then false
    else
      let r4 := if r3.head? = some ':' then r3.tail else r3
      let r5 := r4.dropWhile isPySpace
      r5.head? = some '|'
  | _ => false

/-- The `re.search` for the separator cell inside a candidate block:
true when the pattern matches at some position. -/
def searchSep : List Char → Bool
  | [] => false
  | c :: cs => sepAt (c :: cs) || searchSep cs

/-- `MarkdownExtractor.extract_tables`: every regex match stripped, kept
only when the separator-cell search succeeds on the stripped block. -/
def extract_tables (s : String) : List String :=
  (tableScan s.data.length s.data).filterMap (fun raw =>
    let t := pyStrip raw
    if searchSep t then some (String.mk t) else none)

/-- Split a character list on a separator character (the pieces between
separators, in order; used by the claim-side table definition). -/
def splitOnChar (sep : Char) : List Char → List (List Char)
  | [] => [[]]
  | c :: cs =>
    if c = sep then [] :: splitOnChar sep cs
    else
      match splitOnChar sep cs with
      | l :: ls => (c :: l) :: ls
      | [] => [[c]]

/-- Claim side: does a line start and end with a pipe character? -/
def isPipeLine (l : List Char) : Bool :=
  l.head? = some '|' && l.getLast? = some '|'

/-- Claim side: one separator cell, consisting solely of dashes,
optionally bounded by colons. -/
def claimSepCell (cs : List Char) : Bool :=
  let a := if cs.head? = some ':' then cs.tail else cs
  let b := if a.getLast? = some ':' then a.dropLast else a
  !b.isEmpty && b.all (fun c => c = '-')

/-- Claim side: a header-separator line, a pipe-delimited sequence of
separator cells. -/
def claimSepLine (l : List Char) : Bool :=
  match l with
  | '|' :: rest =>
    if rest.getLast? = some '|' then
      let cells := splitOnChar '|' rest.dropLast
      !cells.isEmpty && cells.all claimSepCell
    else false
  | _ => false

/-- Claim side: the maximal runs of consecutive pipe lines.  Fuel bounds
the loop; one unit per line suffices. -/
def pipeRuns : Nat → List (List Char) → List (List (List Char))
  | 0, _ => []
  | _ + 1, [] => []
  | fuel + 1, l :: ls =>
    if isPipeLine l then
      ((l :: ls).takeWhile isPipeLine) :: pipeRuns fuel ((l :: ls).dropWhile isPipeLine)
    else pipeRuns fuel ls

/-- The table extraction exactly as claim C9 states it (a claim-side
definition, written from the spec's words for comparison with
`extract_tables`): the maximal runs of consecutive lines each starting
and ending with a pipe character that contain at least one
header-separator line. -/
def claimTables (s : String) : List String :=
  let ls := splitOnChar '\n' s.data
  (pipeRuns ls.length ls).filterMap (fun run =>
    if run.any claimSepLine then
      some (String.intercalate "\n" (run.map String.mk))
    else none)

/-! ## The conversation turn engine of src/cliOllama.py -/

/-- A normalized tool call: the `name` and `arguments` of the
`function` entry accumulated into the tool_calls list of the final
message (arguments kept abstract). -/
structure ToolCall where
  name : String
  arguments : String
deriving DecidableEq

/-- The `message` part of one streamed chunk: its content text (empty
when absent) and its `tool_calls` entry, `none` when the key is absent. -/
structure Chunk where
  content : String
  tool_calls : Option (List ToolCall)
deriving DecidableEq

/-- A conversation message dict: `tool_calls` and `name` are `none`
exactly when the corresponding key is absent. -/
structure Message where
  role : String
  content : String
  tool_calls : Option (List ToolCall)
  name : Option String
deriving DecidableEq

/-- One tool advertised by an MCP session (`result.tools` entries). -/
structure ToolSpec where
  name : String
  description : String
  inputSchema : String
deriving DecidableEq

/-- One MCP session: its identity and the outcome of `list_tools()`
(an exception or the advertised tool list). -/
structure Session where
  sid : Nat
  listToolsResult : Except String (List ToolSpec)

/-- Python dict membership (`k in m`). -/
def dmem : List (String × α) → String → Bool
  | [], _ => false
  | p :: m, k => if p.1 = k then true else dmem m k

/-- Python dict lookup (`m.get(k)`). -/
def dget : List (String × α) → String → Option α
  | [], _ => none
  | p :: m, k => if p.1 = k then some p.2 else dget m k

/-- Python dict assignment (`m[k] = v`): overwrite in place when the key
exists, append otherwise. -/
def dinsert (m : List (String × α)) (k : String) (v : α) : List (String × α) :=
  if dmem m k then m.map (fun p => if p.1 = k then (k, v) else p)
  else m ++ [(k, v)]

/-- Register one session's tools (the body of the gathering loop,
cliOllama.py lines 95-110): on a `list_tools` exception the session is
silently skipped; otherwise every tool is appended to the advertised
list and recorded in `tool_to_session` under its name. -/
def regSession (acc : List ToolSpec × List (String × Nat)) (s : Session) :
    List ToolSpec × List (String × Nat) :=
  match s.listToolsResult with
  | .error _ => acc
  | .ok ts => ts.foldl (fun acc2 t => (acc2.1 ++ [t], dinsert acc2.2 t.name s.sid)) acc

/-- The tool gathering at turn start (cliOllama.py lines 92-110):
returns the advertised tool list and the `tool_to_session` map. -/
def gather_tools (sessions : List Session) : List ToolSpec × List (String × Nat) :=
  sessions.foldl regSession ([], [])

/-- One content item of a tool call result, classified exactly as the
hasattr/isinstance chain of cliOllama.py lines 181-187 does: an object
with a `text` attribute, a dict with a `text` key, an object with a
`data` attribute (images), or anything else (for example an embedded
resource, which has none of these). -/
inductive ContentItem where
  | textAttr (t : String)
  | dictText (t : String)
  | dataAttr
  | other
deriving DecidableEq

/-- The text one content item contributes to `tool_output`
(cliOllama.py lines 181-187; the chain has no final else, so an item of
the last kind contributes nothing). -/
def itemText : ContentItem → String
  | .textAttr t => t
  | .dictText t => t
  | .dataAttr => "\n[Image output received]"
  | .other => ""

/-- The `tool_output` accumulation loop (cliOllama.py lines 180-187). -/
def toolOutput (items : List ContentItem) : String :=
  items.foldl (fun a i => a ++ itemText i) ""

/-- Execute one tool call (cliOllama.py lines 163-199): the fragments
yielded and the tool-role message appended.  The executor `ex` stands
for `session.call_tool` of the session registered under the name; it
returns the result's content items or an exception. -/
def execCall (catalog : List (String × Nat))
    (ex : Nat → String → String → Except String (List ContentItem))
    (tc : ToolCall) : List String × Message :=
  match dget catalog tc.name with
  | none =>
    (["\n[Error: Tool " ++ tc.name ++ " not found]"],
     ⟨"tool", "Error: Tool \x27" ++ tc.name ++ "\x27 not found in any active session.",
      none, some tc.name⟩)
  | some pid =>
    match ex pid tc.name tc.arguments with
    | .ok items =>
      (["\n[Executing tool: " ++ tc.name ++ "...]"],
       ⟨"tool", toolOutput items, none, some tc.name⟩)
    | .error e =>
      (["\n[Executing tool: " ++ tc.name ++ "...]", " [Error: " ++ e ++ "]"],
       ⟨"tool", "Error executing tool: " ++ e, none, some tc.name⟩)

/-- Process a batch of tool calls in declared order (the for loop of
cliOllama.py lines 163-199): the concatenated yields and the tool-role
messages, one per call, in order. -/
def processCalls (catalog : List (String × Nat))
    (ex : Nat → String → String → Except String (List ContentItem)) :
    List ToolCall → List String × List Message
  | [] => ([], [])
  | tc :: rest =>
    let r := execCall catalog ex tc
    let rs := processCalls catalog ex rest
    (r.1 ++ rs.1, r.2 :: rs.2)

/-- Concatenation of a list of strings. -/
def concatList : List String → String
  | [] => ""
  | s :: rest => s ++ concatList rest

/-- The content accumulated into the final message
(cliOllama.py lines 124-126). -/
def accContent (chunks : List Chunk) : String :=
  chunks.foldl (fun a c => a ++ c.content) ""

/-- The tool calls accumulated into the final message
(cliOllama.py lines 131-146), in arrival order. -/
def accCalls (chunks : List Chunk) : List ToolCall :=
  chunks.foldl (fun a c =>
    match c.tool_calls with
    | some ts => a ++ ts
    | none => a) []

/-- The content fragments yielded while streaming (cliOllama.py line
127: only non-empty content is yielded). -/
def contentYields (chunks : List Chunk) : List String :=
  chunks.filterMap (fun c => if c.content = "" then none else some c.content)

/-- One call of `ollama.chat(..., stream=True)` consumed to the end:
either the full chunk sequence, or the chunks delivered before an
exception together with the exception text (the exception may also be
raised before any chunk arrives). -/
inductive StreamOutcome where
  | ok (chunks : List Chunk)
  | err (chunks : List Chunk) (e : String)

/-- How `run_chat_turn` returned. -/
inductive TurnStatus where
  | done
  | failed
  | outOfStreams
deriving DecidableEq

/-- The assistant message appended at end of stream (cliOllama.py lines
154-156): the `tool_calls` key is deleted when the accumulated list is
empty. -/
def assistantMsg (content : String) (tcs : List ToolCall) : Message :=
  ⟨"assistant", content, if tcs.isEmpty then none else some tcs, none⟩

/-- The error fragment yielded on a stream exception
(cliOllama.py line 148). -/
def errFrag (e : String) : String := "\n[Ollama Error: " ++ e ++ "]"

/-- `run_chat_turn` (cliOllama.py lines 116-201): the while-True loop,
driven by the scripted sequence of per-round stream outcomes.  Returns
the yielded fragments, the final messages list and the terminal status
(`outOfStreams` when the script is exhausted while the loop would
continue). -/
def run_chat_turn (catalog : List (String × Nat))
    (ex : Nat → String → String → Except String (List ContentItem)) :
    List StreamOutcome → List Message → List String × List Message × TurnStatus
  | [], msgs => ([], msgs, .outOfStreams)
  | .err received e :: _, msgs =>
    (contentYields received ++ [errFrag e], msgs, .failed)
  | .ok chunks :: rest, msgs =>
    let tcs := accCalls chunks
    if tcs.isEmpty then
      (contentYields chunks, msgs ++ [assistantMsg (accContent chunks) tcs], .done)
    else
      let next := run_chat_turn catalog ex rest
        (msgs ++ assistantMsg (accContent chunks) tcs :: (processCalls catalog ex tcs).2)
      (contentYields chunks ++ (processCalls catalog ex tcs).1 ++ next.1, next.2)

/-- Does a session successfully advertise a tool of the given name? -/
def advertises (s : Session) (n : String) : Bool :=
  match s.listToolsResult with
  | .ok ts => ts.any (fun t => t.name = n)
  | .error _ => false

/-- The session id of the last session in iteration order that
advertises the name (the spec's last-registered-wins policy, stated
independently of `gather_tools` for comparison). -/
def lastAdvertiser : List Session → String → Option Nat
  | [], _ => none
  | s :: ss, n =>
    match lastAdvertiser ss n with
    | some i => some i
    | none => if advertises s n then some s.sid else none

/-- The rendering claim C5 asserts (claim side, for comparison with
`itemText`): every non-textual item contributes the fixed placeholder
marker. -/
def claimItemText : ContentItem → String
  | .textAttr t => t
  | .dictText t => t
  | .dataAttr => "\n[Image output received]"
  | .other => "\n[Image output received]"

/-- A tool executor that always succeeds with an empty content list
(used to instantiate theorems at concrete inputs). -/
def exNone : Nat → String → String → Except String (List ContentItem) :=
  fun _ _ _ => .ok []

/-- A tool executor that always succeeds with one textual content item
(used to instantiate theorems at concrete inputs). -/
def exOkText : Nat → String → String → Except String (List ContentItem) :=
  fun _ _ _ => .ok [.textAttr "ok!"]

/-- Two sessions both advertising a tool named dup (used to instantiate
the catalog-collision theorem at a concrete input). -/
def sessionsDup : List Session :=
  [⟨0, .ok [⟨"dup", "d0", "s0"⟩]⟩, ⟨1, .ok [⟨"dup", "d1", "s1"⟩]⟩]

/-! ## Helper lemmas -/

/-- Dropping the last element when a list nonempty list is appended. -/
theorem getLast?_append_right (l1 l2 : List Char) (h : l2 ≠ []) :
    (l1 ++ l2).getLast? = l2.getLast? :=
  List.getLast?_append_of_ne_nil l1 h

/-- The last element of a cons with a nonempty tail. -/
theorem getLast?_cons_ne (a : Char) (l : List Char) (h : l ≠ []) :
    (a :: l).getLast? = l.getLast? :=
  getLast?_append_right [a] l h

/-- dropWhile is idempotent. -/
theorem dropWhile_twice (p : Char → Bool) (l : List Char) :
    (l.dropWhile p).dropWhile p = l.dropWhile p := by
  induction l with
  | nil => rfl
  | cons a t ih =>
    by_cases h : p a
    · simp [List.dropWhile_cons, h, ih]
    · simp [List.dropWhile_cons, h]

/-- A list decomposes as its right-strip followed by stripped suffix. -/
theorem rstrip_decomp (p : Char → Bool) (x : List Char) :
    x = (x.reverse.dropWhile p).reverse ++ (x.reverse.takeWhile p).reverse := by
  conv_lhs => rw [← x.reverse_reverse]
  rw [← List.reverse_append, List.takeWhile_append_dropWhile]

/-- If the first element survives dropWhile then dropping is the identity. -/
theorem dropWhile_eq_self_of_false (p : Char → Bool) (a : Char) (l : List Char)
    (h : p a = false) : (a :: l).dropWhile p = a :: l := by
  simp [List.dropWhile_cons, h]

/-- dropWhile never lengthens a list. -/
theorem dropWhile_length_le (p : Char → Bool) (l : List Char) :
    (l.dropWhile p).length ≤ l.length := by
  induction l with
  | nil => simp
  | cons a t ih =>
    by_cases h : p a
    · rw [List.dropWhile_cons, if_pos (by simpa using h)]
      exact Nat.le_trans ih (by simp)
    · rw [List.dropWhile_cons, if_neg (by simpa using h)]

/-- A list equal to its own dropWhile has a head that fails the predicate. -/
theorem head_false_of_dropWhile_self (p : Char → Bool) (a : Char) (l : List Char)
    (h : (a :: l).dropWhile p = a :: l) : p a = false := by
  by_contra hc
  rw [List.dropWhile_cons, if_pos (by simpa using hc)] at h
  have hlen := congrArg List.length h
  have hle := dropWhile_length_le p l
  simp at hlen
  omega

/-- Right-stripping preserves stability under left dropWhile. -/
theorem dropWhile_rstrip_self (p : Char → Bool) (x : List Char)
    (h : x.dropWhile p = x) :
    ((x.reverse.dropWhile p).reverse).dropWhile p = (x.reverse.dropWhile p).reverse := by
  cases hr : (x.reverse.dropWhile p).reverse with
  | nil => rfl
  | cons a t =>
    have hx := rstrip_decomp p x
    rw [hr] at hx
    have hhead : p a = false := by
      rcases hx2 : x with _ | ⟨b, u⟩
      · rw [hx2] at hx; simp at hx
      · have : a = b := by
          rw [hx2] at hx
          have := congrArg List.head? hx
          simpa using this.symm
        subst this
        exact head_false_of_dropWhile_self p a u (by rw [← hx2]; exact h)
    exact dropWhile_eq_self_of_false p a t hhead

/-- Python strip is idempotent. -/
theorem pyStrip_idem (cs : List Char) : pyStrip (pyStrip cs) = pyStrip cs := by
  unfold pyStrip
  set p := isPySpace with hp
  set x := cs.dropWhile p with hx
  have h1 : x.dropWhile p = x := dropWhile_twice p cs
  set y := (x.reverse.dropWhile p).reverse with hy
  have h2 : y.dropWhile p = y := dropWhile_rstrip_self p x h1
  rw [h2]
  rw [hy, List.reverse_reverse, dropWhile_twice]

/-- The language field is never the empty string. -/
theorem mkLang_ne_empty (lang : List Char) : mkLang lang ≠ some "" := by
  unfold mkLang
  by_cases h : (pyStrip lang).isEmpty
  · simp [h]
  · simp only [h, if_neg]
    intro hc
    injection hc with hc
    have : (String.mk (pyStrip lang)).data = "".data := by rw [hc]
    simp only [String.data] at this
    rw [List.isEmpty_iff] at h
    exact h this

/-- Every block produced by one pattern attempt has the language built
by mkLang and a stripped code body. -/
theorem matchCodeAt_shape (cs : List Char) (blk : CodeBlock) (rest : List Char)
    (h : matchCodeAt cs = some (blk, rest)) :
    ∃ lang code, blk = ⟨mkLang lang, String.mk (pyStrip code)⟩ := by
  unfold matchCodeAt at h
  cases hf : matchFence cs with
  | none => rw [hf] at h; cases h
  | some afterOpen =>
    rw [hf] at h
    simp only at h
    by_cases hh : (afterOpen.dropWhile isLangChar).head? = some '\n'
    · rw [if_pos hh] at h
      cases hs : splitAtFence (afterOpen.dropWhile isLangChar).tail with
      | none => rw [hs] at h; cases h
      | some p =>
        obtain ⟨code, rest'⟩ := p
        rw [hs] at h
        injection h with h'
        injection h' with h1 h2
        exact ⟨afterOpen.takeWhile isLangChar, code, h1.symm⟩
    · rw [if_neg hh] at h; cases h

/-- Every block returned by the scan has the mkLang/stripped shape. -/
theorem codeScan_mem_shape (fuel : Nat) : ∀ cs blk, blk ∈ codeScan fuel cs →
    ∃ lang code, blk = ⟨mkLang lang, String.mk (pyStrip code)⟩ := by
  induction fuel with
  | zero => intro cs blk h; simp [codeScan] at h
  | succ n ih =>
    intro cs blk h
    cases cs with
    | nil => simp [codeScan] at h
    | cons c cs' =>
      rw [codeScan] at h
      cases hm : matchCodeAt (c :: cs') with
      | none => rw [hm] at h; exact ih _ _ h
      | some p =>
        obtain ⟨b, rest⟩ := p
        rw [hm] at h
        simp only [List.mem_cons] at h
        rcases h with h | h
        · exact h ▸ matchCodeAt_shape _ _ _ hm
        · exact ih _ _ h

/-- Claim C8: extract_code_blocks returns the fenced code blocks in
order of appearance; each entry's language is the token following the
opening fence, absent (none, never the empty string) when that token is
empty, and each entry's code is the block body with leading and
trailing whitespace trimmed; on the text of three backticks, python,
a newline, print(1), a newline and three closing backticks it returns
exactly one entry with language python and code print(1). -/
theorem extract_code_blocks_spec (s : String) (b : CodeBlock)
    (hb : b ∈ extract_code_blocks s) :
    extract_code_blocks "```python\nprint(1)\n```" =
      [{ language := some "python", code := "print(1)" }]
    ∧ b.language ≠ some ""
    ∧ pyStrip b.code.data = b.code.data := by
  obtain ⟨lang, code, hshape⟩ := codeScan_mem_shape _ _ _ hb
  subst hshape
  exact ⟨by decide, mkLang_ne_empty lang, by simp only [String.data]; exact pyStrip_idem code⟩

/-- Witness for extract_code_blocks_spec at the concrete text of the
claim. -/
theorem extract_code_blocks_spec_witness :
    ({ language := some "python", code := "print(1)" } : CodeBlock) ∈
      extract_code_blocks "```python\nprint(1)\n```"
    ∧ (extract_code_blocks "```python\nprint(1)\n```" =
        [{ language := some "python", code := "print(1)" }]
      ∧ ({ language := some "python", code := "print(1)" } : CodeBlock).language ≠ some ""
      ∧ pyStrip ({ language := some "python", code := "print(1)" } : CodeBlock).code.data
          = ({ language := some "python", code := "print(1)" } : CodeBlock).code.data) :=
  ⟨by decide, extract_code_blocks_spec "```python\nprint(1)\n```"
    { language := some "python", code := "print(1)" } (by decide)⟩

/-- Every row segment is nonempty and ends with a newline. -/
theorem rowTail_last (cs : List Char) : ∀ seg rem, rowTail cs = some (seg, rem) →
    seg ≠ [] ∧ seg.getLast? = some '\n' := by
  induction cs with
  | nil => intro seg rem h; simp [rowTail] at h
  | cons c rest ih =>
    intro seg rem h
    rw [rowTail] at h
    by_cases h1 : c = '|' && rest.head? = some '\n'
    · rw [if_pos h1] at h
      injection h with h'
      injection h' with ha hb
      subst ha
      exact ⟨by simp, by simp⟩
    · rw [if_neg h1] at h
      by_cases h2 : c = '\n'
      · rw [if_pos (by simpa using h2)] at h; cases h
      · rw [if_neg (by simpa using h2)] at h
        cases hr : rowTail rest with
        | none => rw [hr] at h; cases h
        | some p =>
          obtain ⟨s1, r1⟩ := p
          rw [hr] at h
          injection h with h'
          injection h' with ha hb
          obtain ⟨hne, hlast⟩ := ih s1 r1 hr
          subst ha
          exact ⟨by simp, by rw [getLast?_cons_ne c s1 hne]; exact hlast⟩

/-- Every matched row is nonempty and ends with a newline. -/
theorem matchRowAt_last (cs row rem : List Char) (h : matchRowAt cs = some (row, rem)) :
    row ≠ [] ∧ row.getLast? = some '\n' := by
  cases cs with
  | nil => simp [matchRowAt] at h
  | cons c rest =>
    by_cases hc : c = '|'
    · subst hc
      rw [matchRowAt] at h
      cases hr : rowTail rest with
      | none => rw [hr] at h; cases h
      | some p =>
        obtain ⟨s1, r1⟩ := p
        rw [hr] at h
        injection h with h'
        injection h' with ha hb
        obtain ⟨hne, hlast⟩ := rowTail_last rest s1 r1 hr
        subst ha
        exact ⟨by simp, by rw [getLast?_cons_ne _ s1 hne]; exact hlast⟩
    · rw [show matchRowAt (c :: rest) = none from by
        cases hcc : c
        simp_all [matchRowAt]] at h
      cases h

/-- The greedy row run is empty or ends with a newline. -/
theorem moreRows_last (fuel : Nat) : ∀ cs,
    (moreRows fuel cs).1 = [] ∨ (moreRows fuel cs).1.getLast? = some '\n' := by
  induction fuel with
  | zero => intro cs; left; rfl
  | succ n ih =>
    intro cs
    rw [moreRows]
    cases hm : matchRowAt cs with
    | none => left; rfl
    | some p =>
      obtain ⟨row, rest⟩ := p
      obtain ⟨hne, hlast⟩ := matchRowAt_last cs row rest hm
      simp only
      rcases ih rest with h | h
      · right; rw [h, List.append_nil]; exact hlast
      · right
        rw [getLast?_append_right row _ (by intro hc; rw [hc] at h; cases h)]
        exact h

/-- Every full table match ends with a newline. -/
theorem matchTableAt_last (cs raw rem : List Char) (h : matchTableAt cs = some (raw, rem)) :
    raw.getLast? = some '\n' := by
  unfold matchTableAt at h
  cases hm : matchRowAt cs with
  | none => rw [hm] at h; cases h
  | some p =>
    obtain ⟨row, rest⟩ := p
    obtain ⟨hne, hlast⟩ := matchRowAt_last cs row rest hm
    rw [hm] at h
    simp only at h
    injection h with h'
    injection h' with ha hb
    subst ha
    rcases moreRows_last rest.length rest with hmr | hmr
    · rw [hmr, List.append_nil]; exact hlast
    · rw [getLast?_append_right row _ (by intro hc; rw [hc] at hmr; cases hmr)]
      exact hmr

/-- Every raw match found by the table scan ends with a newline. -/
theorem tableScan_mem (fuel : Nat) : ∀ cs m, m ∈ tableScan fuel cs →
    m.getLast? = some '\n' := by
  induction fuel with
  | zero => intro cs m h; simp [tableScan] at h
  | succ n ih =>
    intro cs m h
    cases cs with
    | nil => simp [tableScan] at h
    | cons c cs' =>
      rw [tableScan] at h
      cases hm : matchTableAt (c :: cs') with
      | none => rw [hm] at h; exact ih _ _ h
      | some p =>
        obtain ⟨raw, rest⟩ := p
        rw [hm] at h
        simp only [List.mem_cons] at h
        rcases h with h | h
        · exact h ▸ matchTableAt_last _ _ _ hm
        · exact ih _ _ h

/-- Claim C10: each table consists only of lines newline-terminated in
the input (every raw regex match ends with a newline, so a final table
row not followed by a newline is excluded); on the input of a header
row, a separator row and a final data row with no trailing newline,
extract_tables returns exactly the table without the last data row. -/
theorem extract_tables_newline_terminated (s : String) (m : List Char)
    (hm : m ∈ tableScan s.data.length s.data) :
    extract_tables "| A |\n|---|\n| 1 |" = ["| A |\n|---|"]
    ∧ m.getLast? = some '\n' :=
  ⟨by decide, tableScan_mem _ _ _ hm⟩

/-- Witness for extract_tables_newline_terminated at the concrete input
of the claim. -/
theorem extract_tables_newline_terminated_witness :
    "| A |\n|---|\n".data ∈ tableScan "| A |\n|---|\n| 1 |".data.length "| A |\n|---|\n| 1 |".data
    ∧ (extract_tables "| A |\n|---|\n| 1 |" = ["| A |\n|---|"]
      ∧ ("| A |\n|---|\n".data).getLast? = some '\n') :=
  ⟨by decide, extract_tables_newline_terminated "| A |\n|---|\n| 1 |" "| A |\n|---|\n".data
    (by decide)⟩

/-- Claim C9 counterexample: the table regex may start a match at a pipe
in the middle of a line; on an input whose only candidate line starts
with a non-pipe character the code still returns a table, while the
claim (runs of lines each starting and ending with a pipe) predicts
none. -/
theorem extract_tables_cex :
    extract_tables "a |---|\n" = ["|---|"]
    ∧ claimTables "a |---|\n" = []
    ∧ extract_tables "a |---|\n" ≠ claimTables "a |---|\n" :=
  ⟨by decide, by decide, by decide⟩

/-- Claim C9 as amended: matches are maximal runs of newline-terminated
pipe-delimited segments, where the first segment may begin at a pipe in
the middle of a line; a run is returned (stripped) only if it contains a
separator cell of a pipe, optional spaces, an optional colon, three or
more dashes, an optional colon, optional spaces and a pipe; on a text
containing one pipe table with a valid separator plus prose lines with
stray pipes not at line ends, exactly that table is returned. -/
theorem extract_tables_amended (s t : String) (ht : t ∈ extract_tables s) :
    extract_tables "Some prose with a | pipe\n| A | B |\n|---|---|\n| 1 | 2 |\nmore | prose\n"
      = ["| A | B |\n|---|---|\n| 1 | 2 |"]
    ∧ searchSep t.data = true := by
  refine ⟨by decide, ?_⟩
  unfold extract_tables at ht
  rcases List.mem_filterMap.mp ht with ⟨raw, _, hraw⟩
  simp only at hraw
  by_cases hs : searchSep (pyStrip raw)
  · rw [if_pos hs] at hraw
    injection hraw with hraw
    rw [← hraw]
    exact hs
  · rw [if_neg hs] at hraw; cases hraw

/-- Witness for extract_tables_amended at the concrete text of the
claim. -/
theorem extract_tables_amended_witness :
    ("| A | B |\n|---|---|\n| 1 | 2 |" : String) ∈
      extract_tables "Some prose with a | pipe\n| A | B |\n|---|---|\n| 1 | 2 |\nmore | prose\n"
    ∧ (extract_tables "Some prose with a | pipe\n| A | B |\n|---|---|\n| 1 | 2 |\nmore | prose\n"
        = ["| A | B |\n|---|---|\n| 1 | 2 |"]
      ∧ searchSep ("| A | B |\n|---|---|\n| 1 | 2 |" : String).data = true) :=
  ⟨by decide, extract_tables_amended
    "Some prose with a | pipe\n| A | B |\n|---|---|\n| 1 | 2 |\nmore | prose\n"
    "| A | B |\n|---|---|\n| 1 | 2 |" (by decide)⟩

/-- A fold that appends rendered elements equals the concatenation of
the rendered list. -/
theorem foldl_append_concat {α : Type} (f : α → String) (l : List α) : ∀ a : String,
    l.foldl (fun acc x => acc ++ f x) a = a ++ concatList (l.map f) := by
  induction l with
  | nil => intro a; simp [concatList]
  | cons x xs ih =>
    intro a
    rw [List.foldl_cons, ih, List.map_cons, concatList, ← String.append_assoc]

/-- The accumulated content is the concatenation of the chunks'
content, in arrival order. -/
theorem accContent_eq (chunks : List Chunk) :
    accContent chunks = concatList (chunks.map (fun c => c.content)) := by
  unfold accContent
  rw [foldl_append_concat (fun c => c.content) chunks ""]
  simp

/-- The yielded content fragments concatenate to the concatenation of
all chunks' content (empty contents are skipped by the yield but
contribute nothing to the concatenation). -/
theorem concat_contentYields (chunks : List Chunk) :
    concatList (contentYields chunks) = concatList (chunks.map (fun c => c.content)) := by
  induction chunks with
  | nil => rfl
  | cons c cs ih =>
    by_cases h : c.content = ""
    · rw [contentYields, List.filterMap_cons, if_pos h]
      rw [← contentYields, ih, List.map_cons, concatList, h]
      simp
    · rw [contentYields, List.filterMap_cons, if_neg h]
      rw [← contentYields, List.map_cons, concatList, concatList, ih]

/-- Chunks without a tool_calls key accumulate no tool calls. -/
theorem accCalls_eq_nil (chunks : List Chunk) (h : ∀ c ∈ chunks, c.tool_calls = none) :
    accCalls chunks = [] := by
  unfold accCalls
  have : ∀ a : List ToolCall, chunks.foldl (fun a c =>
      match c.tool_calls with
      | some ts => a ++ ts
      | none => a) a = a := by
    induction chunks with
    | nil => intro a; rfl
    | cons c cs ih =>
      intro a
      rw [List.foldl_cons, h c (by simp)]
      exact ih (fun x hx => h x (by simp [hx])) a
  exact this []

/-- The tool-role messages of a batch are the per-call messages, one
per call, in declared order. -/
theorem processCalls_msgs (catalog : List (String × Nat))
    (ex : Nat → String → String → Except String (List ContentItem)) :
    ∀ tcs : List ToolCall,
    (processCalls catalog ex tcs).2 = tcs.map (fun tc => (execCall catalog ex tc).2) := by
  intro tcs
  induction tcs with
  | nil => rfl
  | cons tc rest ih => rw [processCalls, List.map_cons, ← ih]

/-- The role and name of every appended tool message: role is tool and
name is the called tool's name, in every branch. -/
theorem execCall_fields (catalog : List (String × Nat))
    (ex : Nat → String → String → Except String (List ContentItem)) (tc : ToolCall) :
    (execCall catalog ex tc).2.role = "tool"
    ∧ (execCall catalog ex tc).2.name = some tc.name := by
  unfold execCall
  split
  · exact ⟨rfl, rfl⟩
  · split
    · exact ⟨rfl, rfl⟩
    · exact ⟨rfl, rfl⟩

/-- Claim C1: a round whose stream yields only content chunks (no
tool-call fragments) yields exactly those contents in arrival order
(their concatenation equal to the accumulated content), appends exactly
one assistant message holding that concatenation with no tool_calls key
at all, and terminates after that single streaming phase (any further
scripted streams are never opened). -/
theorem run_chat_turn_content_only (catalog : List (String × Nat))
    (ex : Nat → String → String → Except String (List ContentItem))
    (chunks : List Chunk) (rest : List StreamOutcome) (msgs : List Message)
    (h : ∀ c ∈ chunks, c.tool_calls = none) :
    run_chat_turn catalog ex (.ok chunks :: rest) msgs =
      (contentYields chunks,
       msgs ++ [{ role := "assistant",
                  content := concatList (chunks.map (fun c => c.content)),
                  tool_calls := none, name := none }], .done)
    ∧ concatList (contentYields chunks) = concatList (chunks.map (fun c => c.content)) := by
  have hacc : accCalls chunks = [] := accCalls_eq_nil chunks h
  constructor
  · rw [run_chat_turn]
    simp only [hacc, List.isEmpty_nil, if_true]
    rw [assistantMsg, accContent_eq]
    simp
  · exact concat_contentYields chunks

/-- Witness for run_chat_turn_content_only at a concrete two-chunk
stream. -/
theorem run_chat_turn_content_only_witness :
    (∀ c ∈ [Chunk.mk "hi" none, Chunk.mk " there" none], c.tool_calls = none)
    ∧ (run_chat_turn [] exNone
        [.ok [Chunk.mk "hi" none, Chunk.mk " there" none], .ok [Chunk.mk "never" none]] [] =
        (contentYields [Chunk.mk "hi" none, Chunk.mk " there" none],
         [] ++ [{ role := "assistant",
                  content := concatList ([Chunk.mk "hi" none, Chunk.mk " there" none].map
                    (fun c => c.content)),
                  tool_calls := none, name := none }], .done)
      ∧ concatList (contentYields [Chunk.mk "hi" none, Chunk.mk " there" none]) =
          concatList ([Chunk.mk "hi" none, Chunk.mk " there" none].map (fun c => c.content))) :=
  ⟨by decide, run_chat_turn_content_only [] exNone
    [Chunk.mk "hi" none, Chunk.mk " there" none] [.ok [Chunk.mk "never" none]] [] (by decide)⟩

/-- A successful dict lookup implies dict membership. -/
theorem dget_some_dmem {α : Type} (m : List (String × α)) (k : String) (v : α)
    (h : dget m k = some v) : dmem m k = true := by
  induction m with
  | nil => cases h
  | cons p m ih =>
    rw [dget] at h
    rw [dmem]
    by_cases hp : p.1 = k
    · rw [if_pos hp]
    · rw [if_neg hp] at h
      rw [if_neg hp]
      exact ih h

/-- The tool output is the concatenation of the per-item texts. -/
theorem toolOutput_eq_concat (items : List ContentItem) :
    toolOutput items = concatList (items.map itemText) := by
  unfold toolOutput
  rw [foldl_append_concat itemText items ""]
  simp

/-- Fixture: a catalog with a single tool t1 owned by session 7. -/
def catalogT1 : List (String × Nat) := [("t1", 7)]

/-- Fixture: one chunk declaring a single call of t1. -/
def chunksTool : List Chunk := [⟨"", some [⟨"t1", "a"⟩]⟩]

/-- Fixture: a follow-up stream with one content chunk and no calls. -/
def restDone : List StreamOutcome := [.ok [⟨"done", none⟩]]

/-- Claim C2: a round in which the model declares N tool calls appends
exactly one assistant message whose tool_calls list has length N,
followed by exactly N tool-role messages, one per declared call and in
the declared order, before the next model stream is opened (the
recursion on the remaining streams starts from precisely these appended
messages). -/
theorem run_chat_turn_tool_batch (catalog : List (String × Nat))
    (ex : Nat → String → String → Except String (List ContentItem))
    (chunks : List Chunk) (rest : List StreamOutcome) (msgs : List Message)
    (h : accCalls chunks ≠ []) :
    run_chat_turn catalog ex (.ok chunks :: rest) msgs =
      (contentYields chunks ++ (processCalls catalog ex (accCalls chunks)).1 ++
         (run_chat_turn catalog ex rest (msgs ++
            assistantMsg (accContent chunks) (accCalls chunks) ::
            (accCalls chunks).map (fun tc => (execCall catalog ex tc).2))).1,
       (run_chat_turn catalog ex rest (msgs ++
            assistantMsg (accContent chunks) (accCalls chunks) ::
            (accCalls chunks).map (fun tc => (execCall catalog ex tc).2))).2)
    ∧ (assistantMsg (accContent chunks) (accCalls chunks)).tool_calls = some (accCalls chunks)
    ∧ ((accCalls chunks).map (fun tc => (execCall catalog ex tc).2)).length
        = (accCalls chunks).length
    ∧ ∀ tc ∈ accCalls chunks,
        ((execCall catalog ex tc).2).role = "tool"
        ∧ ((execCall catalog ex tc).2).name = some tc.name := by
  have hne : (accCalls chunks).isEmpty = false := by
    cases hcc : accCalls chunks
    · exact absurd hcc h
    · rfl
  refine ⟨?_, ?_, by simp, fun tc _ => execCall_fields catalog ex tc⟩
  · rw [run_chat_turn]
    simp only [hne, Bool.false_eq_true, if_false]
    rw [processCalls_msgs]
  · rw [assistantMsg]
    simp only [hne, Bool.false_eq_true, if_false]

/-- Witness for run_chat_turn_tool_batch at a concrete one-call batch. -/
theorem run_chat_turn_tool_batch_witness :
    accCalls chunksTool ≠ []
    ∧ (run_chat_turn catalogT1 exOkText (.ok chunksTool :: restDone) [] =
        (contentYields chunksTool ++ (processCalls catalogT1 exOkText (accCalls chunksTool)).1 ++
           (run_chat_turn catalogT1 exOkText restDone ([] ++
              assistantMsg (accContent chunksTool) (accCalls chunksTool) ::
              (accCalls chunksTool).map (fun tc => (execCall catalogT1 exOkText tc).2))).1,
         (run_chat_turn catalogT1 exOkText restDone ([] ++
              assistantMsg (accContent chunksTool) (accCalls chunksTool) ::
              (accCalls chunksTool).map (fun tc => (execCall catalogT1 exOkText tc).2))).2)
      ∧ (assistantMsg (accContent chunksTool) (accCalls chunksTool)).tool_calls
          = some (accCalls chunksTool)
      ∧ ((accCalls chunksTool).map (fun tc => (execCall catalogT1 exOkText tc).2)).length
          = (accCalls chunksTool).length
      ∧ ∀ tc ∈ accCalls chunksTool,
          ((execCall catalogT1 exOkText tc).2).role = "tool"
          ∧ ((execCall catalogT1 exOkText tc).2).name = some tc.name) :=
  ⟨by decide, run_chat_turn_tool_batch catalogT1 exOkText chunksTool restDone [] (by decide)⟩

/-- Claim C3: a stream exception makes the turn yield the contents
already received followed by exactly one diagnostic fragment, then
terminate as failed; no assistant message is appended for the failed
round (the messages list is returned unchanged, so messages appended by
earlier completed rounds remain). -/
theorem run_chat_turn_stream_error (catalog : List (String × Nat))
    (ex : Nat → String → String → Except String (List ContentItem))
    (received : List Chunk) (e : String) (rest : List StreamOutcome) (msgs : List Message) :
    run_chat_turn catalog ex (.err received e :: rest) msgs =
      (contentYields received ++ [errFrag e], msgs, .failed) := rfl

/-- Claim C4: a pending call whose name is not in the catalog appends a
tool-role message whose content names the missing tool, yields a short
diagnostic fragment, and the batch continues with the remaining calls
(one message per call is still appended; no exception escapes since
every branch is total). -/
theorem run_chat_turn_missing_tool (catalog : List (String × Nat))
    (ex : Nat → String → String → Except String (List ContentItem))
    (tc : ToolCall) (rest : List ToolCall)
    (h : dget catalog tc.name = none) :
    execCall catalog ex tc =
      (["\n[Error: Tool " ++ tc.name ++ " not found]"],
       { role := "tool",
         content := "Error: Tool \x27" ++ tc.name ++ "\x27 not found in any active session.",
         tool_calls := none, name := some tc.name })
    ∧ processCalls catalog ex (tc :: rest) =
        ((execCall catalog ex tc).1 ++ (processCalls catalog ex rest).1,
         (execCall catalog ex tc).2 :: (processCalls catalog ex rest).2)
    ∧ (processCalls catalog ex (tc :: rest)).2.length = rest.length + 1 := by
  refine ⟨?_, rfl, ?_⟩
  · unfold execCall
    rw [h]
  · rw [processCalls_msgs]
    simp

/-- Witness for run_chat_turn_missing_tool on an empty catalog. -/
theorem run_chat_turn_missing_tool_witness :
    dget ([] : List (String × Nat)) (ToolCall.mk "ghost" "a").name = none
    ∧ (execCall [] exNone (ToolCall.mk "ghost" "a") =
        (["\n[Error: Tool " ++ (ToolCall.mk "ghost" "a").name ++ " not found]"],
         { role := "tool",
           content := "Error: Tool \x27" ++ (ToolCall.mk "ghost" "a").name ++
             "\x27 not found in any active session.",
           tool_calls := none, name := some (ToolCall.mk "ghost" "a").name })
      ∧ processCalls [] exNone (ToolCall.mk "ghost" "a" :: [ToolCall.mk "other2" "b"]) =
          ((execCall [] exNone (ToolCall.mk "ghost" "a")).1 ++
             (processCalls [] exNone [ToolCall.mk "other2" "b"]).1,
           (execCall [] exNone (ToolCall.mk "ghost" "a")).2 ::
             (processCalls [] exNone [ToolCall.mk "other2" "b"]).2)
      ∧ (processCalls [] exNone
          (ToolCall.mk "ghost" "a" :: [ToolCall.mk "other2" "b"])).2.length =
          [ToolCall.mk "other2" "b"].length + 1) :=
  ⟨rfl, run_chat_turn_missing_tool [] exNone (ToolCall.mk "ghost" "a")
    [ToolCall.mk "other2" "b"] rfl⟩

/-- Claim C5 counterexample: a content item with neither a text nor a
data attribute (the last kind of the hasattr chain, for example an
embedded resource) contributes nothing to the tool message content, so
it is dropped silently instead of contributing the placeholder marker
the claim requires: the appended content is x, not the placeholder
followed by x. -/
theorem toolOutput_drops_other_item :
    (execCall [("t", 0)]
      (fun _ _ _ => .ok [ContentItem.other, ContentItem.textAttr "x"])
      ⟨"t", "a"⟩).2.content = "x"
    ∧ claimItemText ContentItem.other = "\n[Image output received]"
    ∧ toolOutput [ContentItem.other, ContentItem.textAttr "x"] ≠
        concatList ([ContentItem.other, ContentItem.textAttr "x"].map claimItemText) :=
  ⟨by decide, rfl, by decide⟩

/-- Claim C5 as amended: on a successful invocation the appended
tool-role message concatenates the text of all textual items in order;
a non-textual item carrying a data attribute contributes the fixed
placeholder marker, while a non-textual item with neither text nor data
contributes nothing. -/
theorem execCall_success_content (catalog : List (String × Nat))
    (ex : Nat → String → String → Except String (List ContentItem))
    (tc : ToolCall) (pid : Nat) (items : List ContentItem)
    (h1 : dget catalog tc.name = some pid)
    (h2 : ex pid tc.name tc.arguments = .ok items) :
    (execCall catalog ex tc).2 =
      { role := "tool",
        content := concatList (items.map (fun i =>
          match i with
          | .textAttr t => t
          | .dictText t => t
          | .dataAttr => "\n[Image output received]"
          | .other => "")),
        tool_calls := none, name := some tc.name } := by
  simp only [execCall, h1, h2]
  rw [toolOutput_eq_concat]
  rfl

/-- Witness for execCall_success_content at a concrete mixed result. -/
theorem execCall_success_content_witness :
    dget catalogT1 (ToolCall.mk "t1" "a").name = some 7
    ∧ exOkText 7 (ToolCall.mk "t1" "a").name (ToolCall.mk "t1" "a").arguments =
        .ok [ContentItem.textAttr "ok!"]
    ∧ (execCall catalogT1 exOkText (ToolCall.mk "t1" "a")).2 =
      { role := "tool",
        content := concatList ([ContentItem.textAttr "ok!"].map (fun i =>
          match i with
          | .textAttr t => t
          | .dictText t => t
          | .dataAttr => "\n[Image output received]"
          | .other => "")),
        tool_calls := none, name := some (ToolCall.mk "t1" "a").name } :=
  ⟨rfl, rfl, execCall_success_content catalogT1 exOkText (ToolCall.mk "t1" "a") 7
    [ContentItem.textAttr "ok!"] rfl rfl⟩

/-- Claim C7 counterexample: the tool-not-found branch appends a
tool-role message whose name is precisely a name absent from the
catalog, so a turn with an empty catalog and one declared call appends
a tool-role message whose name is in no catalog entry. -/
theorem toolmsg_missing_name_cex :
    (run_chat_turn [] exNone
      [.ok [Chunk.mk "" (some [ToolCall.mk "ghost" "a"])], .ok []] []).2.1 =
      [ { role := "assistant", content := "",
          tool_calls := some [ToolCall.mk "ghost" "a"], name := none },
        { role := "tool",
          content := "Error: Tool \x27ghost\x27 not found in any active session.",
          tool_calls := none, name := some "ghost" },
        { role := "assistant", content := "", tool_calls := none, name := none } ]
    ∧ dmem ([] : List (String × Nat)) "ghost" = false :=
  ⟨by decide, rfl⟩

/-- Claim C7 as amended: every tool-role message appended while
processing a batch carries the name of the call it answers, in call
order; that name is a catalog entry exactly when the call was found in
the catalog, while the error message for a missing tool carries a name
absent from the catalog. -/
theorem toolmsg_name_matches_call (catalog : List (String × Nat))
    (ex : Nat → String → String → Except String (List ContentItem))
    (tcs : List ToolCall) :
    (processCalls catalog ex tcs).2 = tcs.map (fun tc => (execCall catalog ex tc).2)
    ∧ (∀ tc : ToolCall, ((execCall catalog ex tc).2).role = "tool"
        ∧ ((execCall catalog ex tc).2).name = some tc.name)
    ∧ ∀ (tc : ToolCall) (pid : Nat),
        dget catalog tc.name = some pid → dmem catalog tc.name = true := by
  refine ⟨processCalls_msgs catalog ex tcs, ?_, ?_⟩
  · intro tc
    exact execCall_fields catalog ex tc
  · intro tc pid h
    exact dget_some_dmem catalog tc.name pid h

/-- Witness for toolmsg_name_matches_call on the one-tool catalog. -/
theorem toolmsg_name_matches_call_witness :
    dget catalogT1 (ToolCall.mk "t1" "a").name = some 7
    ∧ dmem catalogT1 (ToolCall.mk "t1" "a").name = true :=
  ⟨rfl, (toolmsg_name_matches_call catalogT1 exNone [ToolCall.mk "t1" "a"]).2.2
    (ToolCall.mk "t1" "a") 7 rfl⟩

/-- Overwriting assignment: lookups of other keys are unchanged. -/
theorem dget_map_replace {α : Type} (m : List (String × α)) (k n : String) (v : α)
    (hn : n ≠ k) :
    dget (m.map (fun p => if p.1 = k then (k, v) else p)) n = dget m n := by
  induction m with
  | nil => rfl
  | cons p m ih =>
    rw [List.map_cons]
    by_cases hp : p.1 = k
    · rw [if_pos hp, dget, dget, if_neg (fun hc => hn hc.symm), if_neg (by rw [hp]; exact fun hc => hn hc.symm)]
      exact ih
    · rw [if_neg hp, dget, dget]
      by_cases hpn : p.1 = n
      · rw [if_pos hpn, if_pos hpn]
      · rw [if_neg hpn, if_neg hpn]
        exact ih

/-- Overwriting assignment: lookup of the assigned key gives the new
value when the key was present. -/
theorem dget_map_hit {α : Type} (m : List (String × α)) (k : String) (v : α)
    (hmem : dmem m k = true) :
    dget (m.map (fun p => if p.1 = k then (k, v) else p)) k = some v := by
  induction m with
  | nil => cases hmem
  | cons p m ih =>
    rw [List.map_cons]
    by_cases hp : p.1 = k
    · rw [if_pos hp, dget, if_pos rfl]
    · rw [if_neg hp, dget, if_neg hp]
      apply ih
      rw [dmem, if_neg hp] at hmem
      exact hmem

/-- Appending assignment: lookup after appending a fresh key. -/
theorem dget_append_single {α : Type} (m : List (String × α)) (k n : String) (v : α)
    (hmem : dmem m k = false) :
    dget (m ++ [(k, v)]) n = if n = k then some v else dget m n := by
  induction m with
  | nil =>
    rw [List.nil_append, dget, dget]
    by_cases h : n = k
    · rw [if_pos (show (k, v).1 = n from h.symm), if_pos h]
    · rw [if_neg (show ¬(k, v).1 = n from fun hc => h hc.symm), if_neg h, dget]
  | cons p m ih =>
    rw [dmem] at hmem
    by_cases hp : p.1 = k
    · rw [if_pos hp] at hmem; cases hmem
    · rw [if_neg hp] at hmem
      rw [List.cons_append, dget, dget]
      by_cases hpn : p.1 = n
      · rw [if_pos hpn, if_pos hpn, if_neg (show ¬n = k by rw [← hpn]; exact hp)]
      · rw [if_neg hpn, if_neg hpn]
        exact ih hmem

/-- Python dict assignment: lookup of the assigned key gives the new
value, every other lookup is unchanged. -/
theorem dget_dinsert {α : Type} (m : List (String × α)) (k n : String) (v : α) :
    dget (dinsert m k v) n = if n = k then some v else dget m n := by
  unfold dinsert
  by_cases hm : dmem m k = true
  · rw [if_pos hm]
    by_cases hn : n = k
    · subst hn
      rw [if_pos rfl, dget_map_hit m n v hm]
    · rw [if_neg hn, dget_map_replace m k n v hn]
  · rw [if_neg hm, dget_append_single m k n v (by simpa using hm)]

/-- Overwriting assignment leaves the key list unchanged. -/
theorem keys_dinsert_hit {α : Type} (m : List (String × α)) (k : String) (v : α) :
    ((m.map (fun p => if p.1 = k then (k, v) else p)).map Prod.fst) = m.map Prod.fst := by
  rw [List.map_map]
  apply List.map_congr_left
  intro p _
  by_cases h : p.1 = k
  · simp [h]
  · simp [h]

/-- A key that is not a member is not among the keys. -/
theorem dmem_false_keys {α : Type} (m : List (String × α)) (k : String)
    (hm : dmem m k = false) : k ∉ m.map Prod.fst := by
  induction m with
  | nil => simp
  | cons p m ih =>
    rw [dmem] at hm
    by_cases hp : p.1 = k
    · rw [if_pos hp] at hm; cases hm
    · rw [if_neg hp] at hm
      simp only [List.map_cons, List.mem_cons]
      rintro (h | h)
      · exact hp h.symm
      · exact ih hm h

/-- Python dict assignment preserves key uniqueness. -/
theorem keys_nodup_dinsert {α : Type} (m : List (String × α)) (k : String) (v : α)
    (h : (m.map Prod.fst).Nodup) : ((dinsert m k v).map Prod.fst).Nodup := by
  unfold dinsert
  by_cases hm : dmem m k = true
  · rw [if_pos hm, keys_dinsert_hit m k v]
    exact h
  · rw [if_neg hm, List.map_append]
    rw [List.nodup_append]
    refine ⟨h, List.nodup_singleton k, ?_⟩
    intro a ha hb
    simp only [List.map_cons, List.map_nil, List.mem_singleton] at hb
    subst hb
    exact dmem_false_keys m a (by simpa using hm) ha

/-- Registering one session's tool list: lookup afterwards. -/
theorem dget_regTools (sid : Nat) (n : String) (ts : List ToolSpec) :
    ∀ acc : List ToolSpec × List (String × Nat),
    dget (ts.foldl (fun acc2 t => (acc2.1 ++ [t], dinsert acc2.2 t.name sid)) acc).2 n =
      if ts.any (fun t => t.name = n) then some sid else dget acc.2 n := by
  induction ts with
  | nil => intro acc; simp
  | cons t ts ih =>
    intro acc
    rw [List.foldl_cons, ih]
    by_cases hts : ts.any (fun t => t.name = n) = true
    · rw [if_pos hts, if_pos (by simp [hts])]
    · rw [if_neg hts]
      simp only [List.any_cons, Bool.or_eq_true, hts, or_false]
      rw [dget_dinsert]
      by_cases htn : t.name = n
      · rw [if_pos htn.symm, if_pos (by simpa using htn)]
      · rw [if_neg (fun hc => htn hc.symm), if_neg (by simpa using htn)]

/-- The lookup after the whole gathering fold is the last advertiser,
falling back to the accumulator. -/
theorem dget_gather_aux (n : String) (ss : List Session) :
    ∀ acc : List ToolSpec × List (String × Nat),
    dget (ss.foldl regSession acc).2 n =
      match lastAdvertiser ss n with
      | some i => some i
      | none => dget acc.2 n := by
  induction ss with
  | nil => intro acc; rfl
  | cons s ss ih =>
    intro acc
    rw [List.foldl_cons, ih, lastAdvertiser]
    cases hl : lastAdvertiser ss n with
    | some i => rfl
    | none =>
      simp only
      unfold regSession advertises
      cases s.listToolsResult with
      | error e => simp
      | ok ts =>
        rw [dget_regTools]
        by_cases h : ts.any (fun t => t.name = n) = true
        · rw [if_pos h, if_pos h]
        · rw [if_neg h, if_neg h]

/-- The inner registration fold preserves key uniqueness. -/
theorem keys_nodup_regTools (sid : Nat) (ts : List ToolSpec) :
    ∀ acc : List ToolSpec × List (String × Nat), (acc.2.map Prod.fst).Nodup →
    (((ts.foldl (fun acc2 t => (acc2.1 ++ [t], dinsert acc2.2 t.name sid)) acc).2).map
      Prod.fst).Nodup := by
  induction ts with
  | nil => intro acc h; exact h
  | cons t ts ih =>
    intro acc h
    rw [List.foldl_cons]
    exact ih _ (keys_nodup_dinsert _ _ _ h)

/-- The gathering fold preserves key uniqueness. -/
theorem keys_nodup_gather_aux (ss : List Session) :
    ∀ acc : List ToolSpec × List (String × Nat), (acc.2.map Prod.fst).Nodup →
    (((ss.foldl regSession acc).2).map Prod.fst).Nodup := by
  induction ss with
  | nil => intro acc h; exact h
  | cons s ss ih =>
    intro acc h
    rw [List.foldl_cons]
    apply ih
    unfold regSession
    cases s.listToolsResult with
    | error e => exact h
    | ok ts => exact keys_nodup_regTools _ _ _ h

/-- Claim C6: the per-turn name-to-session catalog built at turn start
has unique names (a single entry per name); on a collision the entry is
owned by the session registered last in iteration order, and a call of
that name is dispatched to exactly that session's executor. -/
theorem catalog_last_wins (sessions : List Session) (n : String) :
    (((gather_tools sessions).2).map Prod.fst).Nodup
    ∧ dget (gather_tools sessions).2 n = lastAdvertiser sessions n
    ∧ ∀ (ex : Nat → String → String → Except String (List ContentItem)) (args : String)
        (pid : Nat), lastAdvertiser sessions n = some pid →
        execCall (gather_tools sessions).2 ex ⟨n, args⟩ =
          (match ex pid n args with
           | .ok items =>
             (["\n[Executing tool: " ++ n ++ "...]"],
              ⟨"tool", toolOutput items, none, some n⟩)
           | .error e =>
             (["\n[Executing tool: " ++ n ++ "...]", " [Error: " ++ e ++ "]"],
              ⟨"tool", "Error executing tool: " ++ e, none, some n⟩)) := by
  have h2 : dget (gather_tools sessions).2 n = lastAdvertiser sessions n := by
    unfold gather_tools
    rw [dget_gather_aux]
    cases lastAdvertiser sessions n with
    | none => rfl
    | some i => rfl
  refine ⟨?_, h2, ?_⟩
  · unfold gather_tools
    exact keys_nodup_gather_aux sessions ([], []) (by simp)
  · intro ex args pid hp
    unfold execCall
    have hd : dget (gather_tools sessions).2 (ToolCall.mk n args).name = some pid := by
      rw [show (ToolCall.mk n args).name = n from rfl, h2]
      exact hp
    rw [hd]

/-- Witness for catalog_last_wins on two sessions advertising the same
name. -/
theorem catalog_last_wins_witness :
    lastAdvertiser sessionsDup "dup" = some 1
    ∧ execCall (gather_tools sessionsDup).2 exOkText ⟨"dup", "a"⟩ =
        (match exOkText 1 "dup" "a" with
         | .ok items =>
           (["\n[Executing tool: " ++ "dup" ++ "...]"],
            ⟨"tool", toolOutput items, none, some "dup"⟩)
         | .error e =>
           (["\n[Executing tool: " ++ "dup" ++ "...]", " [Error: " ++ e ++ "]"],
            ⟨"tool", "Error executing tool: " ++ e, none, some "dup"⟩)) :=
  ⟨by decide, (catalog_last_wins sessionsDup "dup").2.2 exOkText "a" 1 (by decide)⟩

end OllamaCli
